import Mathlib

/-!
Verification of the FMCSA register scraper (HTML and PDF extraction paths).

The definitions below are a shallow embedding of the TypeScript sources:
  - server/index.ts          (HTML path: POST /api/fmcsa-register, formatDateForFMCSA)
  - api/fmcsa-register.ts    (PDF path: section loop, formatDateForPDF)
  - the express PDF variant  (section loop plus a MISCELLANEOUS fallback)
Strings are modelled as lists of characters (Unicode code points); the
JavaScript regular expressions are modelled by a small backtracking matcher
specialized to the two source patterns, with the standard JS backtracking
order (alternation left to right, greedy quantifiers longest first, lazy
quantifiers shortest first, scan positions left to right).
-/

namespace Hmd

/-- JS regex class "\d". -/
def isDigit (c : Char) : Bool := '0' ≤ c && c ≤ '9'

/-- JS regex class "\s" (WhiteSpace plus LineTerminator, ECMA-262). -/
def isJsSpace (c : Char) : Bool :=
  c == ' ' || c == '\t' || c == '\n' || c == '\r' || c == '\x0b' || c == '\x0c' ||
  c == ' ' || c == ' ' || (' ' ≤ c && c ≤ ' ') ||
  c == ' ' || c == ' ' || c == ' ' || c == ' ' ||
  c == '　' || c == '﻿'

/-- JS line terminators (what "." does not match without the s flag). -/
def isLineTerm (c : Char) : Bool :=
  c == '\n' || c == '\r' || c == ' ' || c == ' '

/-- The "." class of the HTML-path pattern (no s flag: not a line terminator). -/
def dotNoNL (c : Char) : Bool := !(isLineTerm c)

/-- The "[\s\S]" class of the PDF-path pattern: any character. -/
def dotAll (_ : Char) : Bool := true

/-- JS String.prototype.includes: need occurs as a contiguous substring of hay. -/
def containsSub (need : List Char) : List Char → Bool
  | [] => need.isPrefixOf []
  | c :: t => need.isPrefixOf (c :: t) || containsSub need t

/-- JS String.prototype.indexOf: index of the first occurrence, none for -1. -/
def idxOfAux (need : List Char) : List Char → Nat → Option Nat
  | hay, i =>
    if need.isPrefixOf hay then some i
    else
      match hay with
      | [] => none
      | _ :: t => idxOfAux need t (i + 1)

def idxOf (need hay : List Char) : Option Nat := idxOfAux need hay 0

/-- JS hay.indexOf(need, start): first occurrence at or after start. -/
def idxOfFrom (need hay : List Char) (start : Nat) : Option Nat :=
  (idxOf need (hay.drop start)).map (· + start)

/-- JS str.substring(a, b) for a ≤ b: the characters in [a, b). -/
def substringJs (t : List Char) (a b : Nat) : List Char := (t.take b).drop a

/-- JS toUpperCase (restricted to the ASCII letters, which is all the
keywords and markers in the source use). -/
def upperList (t : List Char) : List Char := t.map Char.toUpper

/-- JS String.prototype.trim: strip leading and trailing whitespace. -/
def trimWs (t : List Char) : List Char :=
  ((t.dropWhile isJsSpace).reverse.dropWhile isJsSpace).reverse

/-- One pass of the global replacement of "\s+" by a single space: the flag
records whether the previous character was inside a whitespace run. -/
def collapseWsAux (inRun : Bool) : List Char → List Char
  | [] => []
  | c :: rest =>
    if isJsSpace c then
      if inRun then collapseWsAux true rest else ' ' :: collapseWsAux true rest
    else c :: collapseWsAux false rest

/-- JS str.replace of the global pattern "\s+" by a single space: every
maximal whitespace run becomes one space. -/
def collapseWs (t : List Char) : List Char := collapseWsAux false t

/-- HTML path title normalization: match[2].trim().replace(/\s+/g, ' '). -/
def normalizeHTML (t : List Char) : List Char := collapseWs (trimWs t)

/-- PDF path title normalization:
match[2].replace(/\n/g, ' ').replace(/\s+/g, ' ').trim(). -/
def normalizePDF (t : List Char) : List Char :=
  trimWs (collapseWs (t.map (fun c => if c == '\n' then ' ' else c)))

/-! ### The backtracking matcher for the two source patterns

HTML path: /((?:MC|FF|MX)-\d+)\s+(.*?)\s+(\d{2}\/\d{2}\/\d{4})/g
PDF path:  /((?:MC|FF|MX|MX-MC)-\d+)\s+([\s\S]*?)\s+(\d{2}\/\d{2}\/\d{4})/g

Each combinator passes the consumed characters and the remaining input to a
continuation; a continuation returning none makes the combinator backtrack,
exactly as the JS engine does. -/

/-- First-success choice: the left result when it is some, otherwise the
(delayed) right alternative.  This is the backtracking step. -/
def orElseO {R : Type} : Option R → (Unit → Option R) → Option R
  | some r, _ => some r
  | none, f => f ()

/-- Case split on an optional value with a delayed fallback. -/
def branchO {R S : Type} : Option R → (R → S) → (Unit → S) → S
  | some r, f, _ => f r
  | none, _, g => g ()

/-- Greedy backtracking for a one-or-more character class: try consuming
n characters, then n - 1, ..., down to 1. -/
def backCounts {R : Type} (k : List Char → List Char → Option R) (s : List Char) :
    Nat → Option R
  | 0 => none
  | n + 1 =>
    orElseO (k (s.take (n + 1)) (s.drop (n + 1))) (fun _ => backCounts k s n)

/-- "p+" with a greedy quantifier: longest run first, backtracking down to a
single character. -/
def plusGreedyThen {R : Type} (p : Char → Bool) (s : List Char)
    (k : List Char → List Char → Option R) : Option R :=
  backCounts k s (s.takeWhile p).length

/-- "p*?" with a lazy quantifier: shortest match first, growing one
character at a time. -/
def starLazyThen {R : Type} (dot : Char → Bool) :
    List Char → (List Char → List Char → Option R) → Option R
  | s, k =>
    orElseO (k [] s) (fun _ =>
      match s with
      | [] => none
      | c :: rest =>
        if dot c then starLazyThen dot rest (fun u r => k (c :: u) r) else none)

/-- Ordered alternation over literal alternatives, with backtracking into
later alternatives when the continuation fails. -/
def altsThen {R : Type} (s : List Char) (k : List Char → List Char → Option R) :
    List (List Char) → Option R
  | [] => none
  | a :: more =>
    orElseO (if a.isPrefixOf s then k a (s.drop a.length) else none)
      (fun _ => altsThen s k more)

/-- The literal "-" of the docket pattern. -/
def dashThen {R : Type} (s : List Char) (k : List Char → Option R) : Option R :=
  match s with
  | '-' :: r2 => k r2
  | _ => none

/-- "\d{2}\/\d{2}\/\d{4}": ten characters in date shape, plus the rest. -/
def matchDate (s : List Char) : Option (List Char × List Char) :=
  match s with
  | a :: b :: c :: d :: e :: f :: g :: h :: i :: j :: rest =>
    if isDigit a && isDigit b && (c == '/') && isDigit d && isDigit e &&
        (f == '/') && isDigit g && isDigit h && isDigit i && isDigit j then
      some ([a, b, c, d, e, f, g, h, i, j], rest)
    else none
  | _ => none

/-- One match of the register pattern: the three capture groups and the
total length of match[0]. -/
structure RawMatch where
  docket : List Char
  title : List Char
  date : List Char
  stop : Nat
deriving Repr, DecidableEq

/-- Attempt the whole pattern anchored at the start of s, with the given
docket prefix alternatives and "dot" class. -/
def tryAt (alts : List (List Char)) (dot : Char → Bool) (s : List Char) :
    Option RawMatch :=
  altsThen s
    (fun a r1 =>
      dashThen r1 (fun r2 =>
        plusGreedyThen isDigit r2 (fun ds r3 =>
          plusGreedyThen isJsSpace r3 (fun w1 r4 =>
            starLazyThen dot r4 (fun ti r5 =>
              plusGreedyThen isJsSpace r5 (fun w2 r6 =>
                (matchDate r6).map (fun pr =>
                  { docket := a ++ '-' :: ds
                    title := ti
                    date := pr.1
                    stop := a.length + 1 + ds.length + w1.length + ti.length +
                      w2.length + 10 })))))))
    alts

/-- The exec loop of a global JS regex: scan positions left to right, and
continue after the end of each match.  The fuel argument bounds the number
of loop steps; scan supplies enough fuel for the whole input (each step
either consumes at least one character or ends the scan). -/
def scanFuel (alts : List (List Char)) (dot : Char → Bool) :
    Nat → List Char → Nat → List (Nat × RawMatch)
  | 0, _, _ => []
  | _, [], _ => []
  | f + 1, c :: rest, pos =>
    branchO (tryAt alts dot (c :: rest))
      (fun m =>
        (pos, m) :: scanFuel alts dot f ((c :: rest).drop m.stop) (pos + m.stop))
      (fun _ => scanFuel alts dot f rest (pos + 1))

/-- All matches of the pattern over s, with their match.index values. -/
def scan (alts : List (List Char)) (dot : Char → Bool) (s : List Char) :
    List (Nat × RawMatch) :=
  scanFuel alts dot s.length s 0

/-- Docket alternatives of the HTML-path pattern: (?:MC|FF|MX). -/
def htmlAlts : List (List Char) := [['M', 'C'], ['F', 'F'], ['M', 'X']]

/-- Docket alternatives of the PDF-path pattern: (?:MC|FF|MX|MX-MC). -/
def pdfAlts : List (List Char) :=
  [['M', 'C'], ['F', 'F'], ['M', 'X'], ['M', 'X', '-', 'M', 'C']]

/-! ### Data model and the two extraction pipelines -/

/-- An extracted register entry: { number, title, decided, category }. -/
structure RegisterEntry where
  number : String
  title : String
  decided : String
  category : String
deriving Repr, DecidableEq

/-- The ordered categoryPatterns table of the HTML path (JS object entries
iterate in insertion order). -/
def categoryPatterns : List (String × String) :=
  [("NAME CHANGE", "NAME CHANGE"),
   ("CERTIFICATE, PERMIT, LICENSE", "CERTIFICATE, PERMIT, LICENSE"),
   ("CERTIFICATE OF REGISTRATION", "CERTIFICATE OF REGISTRATION"),
   ("DISMISSAL", "DISMISSAL"),
   ("WITHDRAWAL", "WITHDRAWAL"),
   ("REVOCATION", "REVOCATION"),
   ("TRANSFERS", "TRANSFERS"),
   ("GRANT DECISION NOTICES", "GRANT DECISION NOTICES")]

/-- The category loop of the HTML path: start from MISCELLANEOUS and walk
the keyword table in order, overwriting the category whenever the keyword
occurs in the (already upper-cased) lookback window. -/
def categorize (beforeText : List Char) : String :=
  categoryPatterns.foldl
    (fun acc pc => if containsSub pc.1.data beforeText then pc.2 else acc)
    "MISCELLANEOUS"

/-- The filter-with-findIndex deduplication shared by all variants: keep an
entry exactly when its index equals the first index holding the same
(number, title) pair. -/
def pairEq (a b : RegisterEntry) : Bool :=
  a.number == b.number && a.title == b.title

/-- The entries paired with their indices (JS filter callback arguments). -/
def withIdx {α : Type} : List α → Nat → List (Nat × α)
  | [], _ => []
  | a :: l, n => (n, a) :: withIdx l (n + 1)

def uniqueEntries (es : List RegisterEntry) : List RegisterEntry :=
  ((withIdx es 0).filter
      (fun ie => es.findIdx (fun x => pairEq x ie.2) == ie.1)).map
    (fun ie => ie.2)

/-- The HTML-path match loop of POST /api/fmcsa-register: one entry per
match, with the category derived from the upper-cased 500 characters before
the match start. -/
def htmlExtractRaw (text : List Char) : List RegisterEntry :=
  (scan htmlAlts dotNoNL text).map
    (fun im =>
      { number := im.2.docket.asString
        title := (normalizeHTML im.2.title).asString
        decided := im.2.date.asString
        category := categorize (upperList (substringJs text (im.1 - 500) im.1)) })

/-- The HTML path: match loop followed by deduplication. -/
def htmlExtract (text : List Char) : List RegisterEntry :=
  uniqueEntries (htmlExtractRaw text)

/-- The PDF-path section table: category label and header string. -/
structure SectionSpec where
  name : String
  header : String
deriving Repr, DecidableEq

def sections : List SectionSpec :=
  [⟨"NAME CHANGE", "NAME CHANGES"⟩,
   ⟨"CERTIFICATE, PERMIT, LICENSE", "CERTIFICATES, PERMITS & LICENSES"⟩,
   ⟨"CERTIFICATE OF REGISTRATION", "CERTIFICATES OF REGISTRATION"⟩,
   ⟨"DISMISSAL", "DISMISSALS"⟩,
   ⟨"WITHDRAWAL", "WITHDRAWAL OF APPLICATION"⟩,
   ⟨"REVOCATION", "REVOCATIONS"⟩,
   ⟨"TRANSFERS", "TRANSFERS"⟩,
   ⟨"GRANT DECISION NOTICES", "GRANT DECISION NOTICES"⟩]

/-- One iteration of the PDF-path section loop: locate the section slice of
the text, run the record pattern inside it, and keep records whose
normalized title length lies strictly between 0 and 500. -/
def sectionEntries (text : List Char) (i : Nat) : List RegisterEntry :=
  match sections[i]? with
  | none => []
  | some cur =>
    match idxOf cur.header.data text with
    | none => []
    | some startIdx =>
      let endIdx : Nat :=
        match sections[i + 1]? with
        | some nxt =>
          match idxOfFrom nxt.header.data text startIdx with
          | some e => e
          | none => text.length
        | none => text.length
      let sectionText := substringJs text startIdx endIdx
      (scan pdfAlts dotAll sectionText).filterMap
        (fun im =>
          let ti := normalizePDF im.2.title
          if 0 < ti.length ∧ ti.length < 500 then
            some
              { number := im.2.docket.asString
                title := ti.asString
                decided := im.2.date.asString
                category := cur.name }
          else none)

/-- The PDF-path section loop over all eight sections. -/
def pdfSectionPass (text : List Char) : List RegisterEntry :=
  ((List.range sections.length).map (sectionEntries text)).flatten

/-- The serverless PDF variant (api/fmcsa-register.ts): section loop, then
deduplication; no fallback. -/
def pdfExtract (text : List Char) : List RegisterEntry :=
  uniqueEntries (pdfSectionPass text)

/-- The fallback pass of the express PDF variant: re-scan the whole text
and label every match MISCELLANEOUS, with no title-length guard. -/
def pdfGlobalPass (text : List Char) : List RegisterEntry :=
  (scan pdfAlts dotAll text).map
    (fun im =>
      { number := im.2.docket.asString
        title := (normalizePDF im.2.title).asString
        decided := im.2.date.asString
        category := "MISCELLANEOUS" })

/-- The express PDF variant: section loop, fallback when it produced no
entries, then deduplication. -/
def pdfExtractFallback (text : List Char) : List RegisterEntry :=
  uniqueEntries
    (if (pdfSectionPass text).isEmpty then pdfGlobalPass text
     else pdfSectionPass text)

/-! ### Date formatting helpers -/

/-- formatDateForPDF: the global replacement of "-" by the empty string,
which deletes every hyphen. -/
def formatDateForPDF (s : String) : String :=
  ⟨s.data.filter (fun c => c != '-')⟩

/-- A JS Date as seen through the three getters the source uses.  getMonth
is 0-based (0 = January), getDate is the day of the month. -/
structure JSDate where
  fullYear : Nat
  month0 : Nat
  dayOfMonth : Nat

def monthsFMCSA : List String :=
  ["JAN", "FEB", "MAR", "APR", "MAY", "JUN",
   "JUL", "AUG", "SEP", "OCT", "NOV", "DEC"]

/-- JS String(n).padStart(2, '0'). -/
def padStart2Zero (s : String) : String :=
  ⟨List.replicate (2 - s.data.length) '0' ++ s.data⟩

/-- JS String(n).slice(-2): the last two characters (the whole string when
it is shorter). -/
def sliceLast2 (s : String) : String :=
  ⟨s.data.drop (s.data.length - 2)⟩

/-- formatDateForFMCSA: day-MMM-yy from the three Date getters. -/
def formatDateForFMCSA (d : JSDate) : String :=
  padStart2Zero (toString d.dayOfMonth) ++ "-" ++
    (monthsFMCSA.getD d.month0 "") ++ "-" ++ sliceLast2 (toString d.fullYear)

/-! ### The HTML endpoint envelope -/

/-- The response envelope of POST /api/fmcsa-register (HTML path); the
date, count and lastUpdated fields of the success body are omitted. -/
structure Envelope where
  status : Nat
  success : Bool
  error : Option String
  entries : List RegisterEntry
deriving Repr, DecidableEq

/-- The HTML endpoint after the upstream body arrived: reject the body with
a 400 envelope when the FMCSA REGISTER marker is absent (case-insensitive),
otherwise flatten the HTML (the cheerio text() call, an external library,
is a parameter) and run the extraction pipeline. -/
def fmcsaRegisterRespond (flatten : String → String) (body : String) : Envelope :=
  if containsSub ("FMCSA REGISTER").data (upperList body.data) then
    { status := 200
      success := true
      error := none
      entries := htmlExtract (flatten body).data }
  else
    { status := 400
      success := false
      error := some "Invalid response from FMCSA"
      entries := [] }

/-! ### Well-formed docket/title/date triples and their canonical rendering

These definitions formalize "input text containing N well-formed triples":
the text is the records laid out one per line, each as docket, one space,
title, one space, date. -/

/-- A docket/title/date triple as it occurs in the source text. -/
structure SrcTriple where
  pfx : List Char
  digs : List Char
  title : List Char
  date : List Char
deriving Repr, DecidableEq

/-- The docket token: prefix, dash, digits. -/
def SrcTriple.docket (tr : SrcTriple) : List Char := tr.pfx ++ '-' :: tr.digs

/-- One record line: docket, space, title, space, date. -/
def SrcTriple.render (tr : SrcTriple) : List Char :=
  tr.docket ++ ' ' :: tr.title ++ ' ' :: tr.date

/-- The whole input text: records separated by newlines. -/
def renderText : List SrcTriple → List Char
  | [] => []
  | [tr] => tr.render
  | tr :: rest => tr.render ++ '\n' :: renderText rest

/-- The matches the scan is expected to produce on a rendered triple list:
one match per record, at the running position, consuming the whole record
line. -/
def expectedMatches : List SrcTriple → Nat → List (Nat × RawMatch)
  | [], _ => []
  | tr :: rest, pos =>
    (pos, ⟨tr.docket, tr.title, tr.date, tr.render.length⟩) ::
      expectedMatches rest (pos + tr.render.length + 1)

/-- Exactly ten characters in MM/DD/YYYY shape. -/
def dateShapeB : List Char → Bool
  | [a, b, c, d, e, f, g, h, i, j] =>
    isDigit a && isDigit b && (c == '/') && isDigit d && isDigit e &&
      (f == '/') && isDigit g && isDigit h && isDigit i && isDigit j
  | _ => false

/-- Well-formedness of one triple: a valid docket prefix and digit run, a
nonempty title free of line terminators and slashes, not starting or ending
with whitespace and already in normalized form, and a date in MM/DD/YYYY
shape.  All components are decidable. -/
def GoodTriple (tr : SrcTriple) : Prop :=
  (tr.pfx = ['M', 'C'] ∨ tr.pfx = ['F', 'F'] ∨ tr.pfx = ['M', 'X'])
  ∧ tr.digs ≠ []
  ∧ (∀ c ∈ tr.digs, isDigit c = true)
  ∧ tr.title ≠ []
  ∧ (∀ c ∈ tr.title, dotNoNL c = true ∧ c ≠ '/')
  ∧ (∀ c, tr.title.head? = some c → isJsSpace c = false)
  ∧ (∀ c, tr.title.getLast? = some c → isJsSpace c = false)
  ∧ normalizeHTML tr.title = tr.title
  ∧ dateShapeB tr.date = true

instance (tr : SrcTriple) : Decidable (GoodTriple tr) := by
  unfold GoodTriple; infer_instance

/-! ### Concrete example inputs used in the theorems below -/

/-- A window where DISMISSAL occurs nearer the match than REVOCATION. -/
def exText1 : List Char := ("REVOCATION XYZ DISMISSAL MC-1 Foo 01/02/2024").data

/-- A record whose title is exactly 500 characters long. -/
def exText2h : List Char :=
  ("MC-1 ").data ++ List.replicate 500 'A' ++ (" 01/02/2024").data

/-- The same over-long record below a REVOCATIONS header. -/
def exText2p : List Char := ("REVOCATIONS\n").data ++ exText2h

/-- A REVOCATIONS header followed by one record and no further headers. -/
def exText4 : List Char := ("REVOCATIONS\nMC-1 Foo 01/02/2024").data

/-- A REVOCATIONS header whose only record has an empty title (two spaces
between the docket and the date). -/
def exText5 : List Char := ("REVOCATIONS MC-1  01/02/2024").data

/-- A record with no section header anywhere. -/
def exText5b : List Char := ("MC-9 Foo 01/02/2024").data

/-- A composite MX-MC docket below a REVOCATIONS header. -/
def exText10 : List Char :=
  ("REVOCATIONS\nMX-MC-123456 Smith Trucking Co 01/02/2024").data

/-- Two well-formed example triples with distinct (docket, title) pairs. -/
def exTriples : List SrcTriple :=
  [⟨['M', 'C'], ("123456").data, ("Smith Trucking Co").data, ("01/02/2024").data⟩,
   ⟨['F', 'F'], ("9").data, ("Acme Lines").data, ("11/12/2023").data⟩]

/-! ### Deduplication lemmas -/

theorem withIdx_mem {α : Type} :
    ∀ {l : List α} {n i : Nat} {a : α}, (i, a) ∈ withIdx l n →
      n ≤ i ∧ l[i - n]? = some a := by
  intro l
  induction l with
  | nil => intro n i a h; simp [withIdx] at h
  | cons b t ih =>
    intro n i a h
    simp only [withIdx, List.mem_cons] at h
    rcases h with h | h
    · rcases Prod.mk.injEq .. ▸ h with ⟨h1, h2⟩
      subst h1; subst h2
      simp
    · obtain ⟨h1, h2⟩ := ih h
      refine ⟨Nat.le_of_succ_le h1, ?_⟩
      have hi : i - n = (i - (n + 1)) + 1 := by omega
      rw [hi]
      simpa using h2

theorem withIdx_map_snd {α : Type} :
    ∀ (l : List α) (n : Nat), (withIdx l n).map (fun ie => ie.2) = l := by
  intro l
  induction l with
  | nil => intro n; simp [withIdx]
  | cons b t ih => intro n; simp [withIdx, ih]

theorem withIdx_pairwise {α : Type} :
    ∀ (l : List α) (n : Nat), (withIdx l n).Pairwise (fun a b => a.1 < b.1) := by
  intro l
  induction l with
  | nil => intro n; simp [withIdx]
  | cons b t ih =>
    intro n
    simp only [withIdx, List.pairwise_cons]
    refine ⟨?_, ih (n + 1)⟩
    intro p hp
    have := (withIdx_mem hp).1
    omega

theorem findIdx_beq_iff {α : Type} (p : α → Bool) :
    ∀ (l : List α) (i : Nat) (e : α), l[i]? = some e → p e = true →
      ((l.findIdx p == i) = (l.take i).all (fun x => !p x)) := by
  intro l
  induction l with
  | nil => intro i e h; simp at h
  | cons a t ih =>
    intro i e hget hp
    cases i with
    | zero =>
      simp only [List.getElem?_cons_zero, Option.some.injEq] at hget
      subst hget
      simp [List.findIdx_cons, hp]
    | succ j =>
      simp only [List.getElem?_cons_succ] at hget
      rw [List.findIdx_cons, List.take_succ_cons, List.all_cons]
      cases ha : p a with
      | true =>
        simp only [ha, cond_true, Bool.not_true, Bool.false_and]
        refine beq_eq_false_iff_ne.mpr ?_
        omega
      | false =>
        have hss : (t.findIdx p + 1 == j + 1) = (t.findIdx p == j) := by
          by_cases h2 : t.findIdx p = j
          · subst h2; simp
          · have e1 : (t.findIdx p + 1 == j + 1) = false :=
              beq_eq_false_iff_ne.mpr (by omega)
            have e2 : (t.findIdx p == j) = false := beq_eq_false_iff_ne.mpr h2
            rw [e1, e2]
        simp only [ha, cond_false, Bool.not_false, Bool.true_and, hss]
        exact ih j e hget hp

theorem pairEq_self (e : RegisterEntry) : pairEq e e = true := by
  simp [pairEq]

theorem pairEq_iff {a b : RegisterEntry} :
    pairEq a b = true ↔ (a.number = b.number ∧ a.title = b.title) := by
  simp [pairEq]

/-- The deduplication filter keeps exactly the entries with no earlier
pair-equal occurrence, in order. -/
theorem uniqueEntries_char (es : List RegisterEntry) :
    uniqueEntries es =
      ((withIdx es 0).filter
          (fun ie => (es.take ie.1).all (fun x => !pairEq x ie.2))).map
        (fun ie => ie.2) := by
  unfold uniqueEntries
  congr 1
  apply List.filter_congr
  intro ie hie
  obtain ⟨-, hget⟩ := withIdx_mem hie
  simpa using findIdx_beq_iff (fun x => pairEq x ie.2) es ie.1 ie.2
    (by simpa using hget) (pairEq_self ie.2)

theorem getElem?_take_lt {α : Type} :
    ∀ (l : List α) (n k : Nat), k < n → (l.take n)[k]? = l[k]? := by
  intro l
  induction l with
  | nil => intro n k h; simp
  | cons a t ih =>
    intro n k h
    cases n with
    | zero => omega
    | succ m =>
      cases k with
      | zero => simp
      | succ j => simpa using ih m j (by omega)

theorem mem_take_get {α : Type} {l : List α} {i : Nat} {x : α}
    (h : x ∈ l.take i) : ∃ k, k < i ∧ l[k]? = some x := by
  obtain ⟨k, hk⟩ := List.getElem?_of_mem h
  have hlen : k < (l.take i).length := (List.getElem?_eq_some.mp hk).1
  have hki : k < i := lt_of_lt_of_le hlen (by simp [List.length_take])
  exact ⟨k, hki, by rw [← getElem?_take_lt l i k hki]; exact hk⟩

theorem unique_self_of_pairwise {l : List RegisterEntry}
    (h : l.Pairwise (fun a b => pairEq a b = false)) : uniqueEntries l = l := by
  rw [uniqueEntries_char]
  have hall : ∀ ie ∈ withIdx l 0,
      ((l.take ie.1).all (fun x => !pairEq x ie.2)) = true := by
    intro ie hie
    obtain ⟨-, hget⟩ := withIdx_mem hie
    rw [List.all_eq_true]
    intro x hx
    obtain ⟨k, hk, hkget⟩ := mem_take_get hx
    have hgl := List.pairwise_iff_get.mp h
    obtain ⟨hkl, hkx⟩ := List.getElem?_eq_some.mp hkget
    obtain ⟨hil, hie2⟩ := List.getElem?_eq_some.mp (by simpa using hget)
    have := hgl ⟨k, hkl⟩ ⟨ie.1, hil⟩ hk
    simp only [List.get_eq_getElem, hkx, hie2] at this
    simp [this]
  rw [List.filter_eq_self.mpr hall, withIdx_map_snd]

theorem unique_self_of_nodup_pairs {l : List RegisterEntry}
    (h : (l.map (fun e => (e.number, e.title))).Nodup) : uniqueEntries l = l := by
  apply unique_self_of_pairwise
  have := (List.pairwise_map).mp h
  apply this.imp
  intro a b hne
  rcases Bool.eq_false_or_eq_true (pairEq a b) with ht | hf
  · exact absurd (Prod.ext (pairEq_iff.mp ht).1 (pairEq_iff.mp ht).2) hne
  · exact hf

/-- Deduplication only keeps entries of its input. -/
theorem mem_of_mem_uniqueEntries {e : RegisterEntry} {es : List RegisterEntry}
    (h : e ∈ uniqueEntries es) : e ∈ es := by
  rw [uniqueEntries_char] at h
  obtain ⟨ie, hmem, he⟩ := List.mem_map.mp h
  obtain ⟨-, hget⟩ := withIdx_mem (List.mem_of_mem_filter hmem)
  obtain ⟨hl, hv⟩ := List.getElem?_eq_some.mp hget
  exact he ▸ hv ▸ List.getElem_mem hl

/-- The output of deduplication carries pairwise distinct pairs. -/
theorem unique_pairwise (es : List RegisterEntry) :
    (uniqueEntries es).Pairwise (fun a b => pairEq a b = false) := by
  rw [uniqueEntries_char]
  rw [List.pairwise_map]
  have hbase : ((withIdx es 0).filter
      (fun ie => (es.take ie.1).all (fun x => !pairEq x ie.2))).Pairwise
      (fun a b => a.1 < b.1) := (withIdx_pairwise es 0).filter _
  apply hbase.imp_of_mem
  intro a b ha hb hlt
  have hbcond := List.of_mem_filter hb
  have hamem := List.mem_of_mem_filter ha
  obtain ⟨-, haget⟩ := withIdx_mem hamem
  have hge : es[a.1]? = some a.2 := by simpa using haget
  have hmem : a.2 ∈ es.take b.1 := by
    have hsome : (es.take b.1)[a.1]? = some a.2 := by
      rw [getElem?_take_lt es b.1 a.1 hlt]; exact hge
    obtain ⟨hl, hv⟩ := List.getElem?_eq_some.mp hsome
    exact hv ▸ List.getElem_mem hl
  have := (List.all_eq_true.mp hbcond) a.2 hmem
  simpa using this

/-! ### The category loop -/

/-- A fold that overwrites its accumulator whenever the predicate holds
computes the last matching value. -/
theorem foldl_pick {α : Type} (q : α × String → Bool) :
    ∀ (l : List (α × String)) (d : String),
      l.foldl (fun acc pc => if q pc then pc.2 else acc) d
        = ((l.filter q).map Prod.snd).getLastD d := by
  intro l
  induction l with
  | nil => intro d; simp
  | cons a t ih =>
    intro d
    simp only [List.foldl_cons]
    by_cases hq : q a
    · rw [if_pos hq, ih, List.filter_cons_of_pos hq, List.map_cons,
        List.getLastD_cons]
    · rw [if_neg hq, ih, List.filter_cons_of_neg (by simpa using hq)]

/-- The category of the HTML path is the keyword occupying the last
position, in table order, among the keywords contained anywhere in the
lookback window; window positions play no role. -/
theorem categorize_char (w : List Char) :
    categorize w =
      ((categoryPatterns.filter (fun pc => containsSub pc.1.data w)).map
          Prod.snd).getLastD "MISCELLANEOUS" := by
  rw [categorize]
  exact foldl_pick (fun (pc : String × String) => containsSub pc.1.data w)
    categoryPatterns "MISCELLANEOUS"

/-! ### Substring search -/

theorem idxOfAux_isSome :
    ∀ (need hay : List Char) (n : Nat),
      (idxOfAux need hay n).isSome = containsSub need hay := by
  intro need hay
  induction hay with
  | nil =>
    intro n
    by_cases h : need.isPrefixOf []
    · simp [idxOfAux, containsSub, h]
    · simp [idxOfAux, containsSub, h]
  | cons c t ih =>
    intro n
    by_cases h : need.isPrefixOf (c :: t)
    · simp [idxOfAux, containsSub, h]
    · simp only [idxOfAux, containsSub, h, if_neg, Bool.false_or]
      simpa [h] using ih (n + 1)

theorem contains_of_idxOf_some {need hay : List Char} {k : Nat}
    (h : idxOf need hay = some k) : containsSub need hay = true := by
  have := idxOfAux_isSome need hay 0
  rw [idxOf] at h
  rw [h] at this
  simpa using this.symm

theorem idxOf_none_of_not_contains {need hay : List Char}
    (h : containsSub need hay = false) : idxOf need hay = none := by
  have := idxOfAux_isSome need hay 0
  rw [h] at this
  rw [idxOf]
  exact Option.not_isSome_iff_eq_none.mp (by simp [this])

/-! ### PDF path: section structure -/

/-- Every entry of the section pass gets the label of a section whose
header actually occurs in the text. -/
theorem pdfSectionPass_category {text : List Char} {e : RegisterEntry}
    (h : e ∈ pdfSectionPass text) :
    ∃ s ∈ sections, e.category = s.name ∧ containsSub s.header.data text = true := by
  rw [pdfSectionPass] at h
  obtain ⟨l, hl, hel⟩ := List.mem_flatten.mp h
  obtain ⟨i, -, hmap⟩ := List.mem_map.mp hl
  subst hmap
  rcases hcur : sections[i]? with - | cur
  · simp [sectionEntries, hcur] at hel
  · rcases hidx : idxOf cur.header.data text with - | startIdx
    · simp [sectionEntries, hcur, hidx] at hel
    · simp only [sectionEntries, hcur, hidx] at hel
      obtain ⟨im, -, hsome⟩ := List.mem_filterMap.mp hel
      refine ⟨cur, ?_, ?_, contains_of_idxOf_some hidx⟩
      · obtain ⟨hli, hv⟩ := List.getElem?_eq_some.mp hcur
        exact hv ▸ List.getElem_mem hli
      · by_cases hc : 0 < (normalizePDF im.2.title).length ∧
            (normalizePDF im.2.title).length < 500
        · rw [if_pos hc] at hsome
          cases hsome
          rfl
        · rw [if_neg hc] at hsome
          cases hsome

/-- Every entry of the section pass has a normalized title whose length is
strictly between 0 and 500. -/
theorem pdfSectionPass_title_bounds {text : List Char} {e : RegisterEntry}
    (h : e ∈ pdfSectionPass text) :
    0 < e.title.length ∧ e.title.length < 500 := by
  rw [pdfSectionPass] at h
  obtain ⟨l, hl, hel⟩ := List.mem_flatten.mp h
  obtain ⟨i, -, hmap⟩ := List.mem_map.mp hl
  subst hmap
  rcases hcur : sections[i]? with - | cur
  · simp [sectionEntries, hcur] at hel
  · rcases hidx : idxOf cur.header.data text with - | startIdx
    · simp [sectionEntries, hcur, hidx] at hel
    · simp only [sectionEntries, hcur, hidx] at hel
      obtain ⟨im, -, hsome⟩ := List.mem_filterMap.mp hel
      by_cases hc : 0 < (normalizePDF im.2.title).length ∧
          (normalizePDF im.2.title).length < 500
      · rw [if_pos hc] at hsome
        cases hsome
        simpa [List.length_asString] using hc
      · rw [if_neg hc] at hsome
        cases hsome

/-- When no section header occurs in the text, the section pass yields no
entries at all. -/
theorem pdfSectionPass_empty_of_no_header {text : List Char}
    (h : ∀ s ∈ sections, containsSub s.header.data text = false) :
    pdfSectionPass text = [] := by
  rw [pdfSectionPass]
  rw [List.flatten_eq_nil_iff]
  intro l hl
  obtain ⟨i, -, hmap⟩ := List.mem_map.mp hl
  subst hmap
  rcases hcur : sections[i]? with - | cur
  · simp [sectionEntries, hcur]
  · have hmem : cur ∈ sections := by
      obtain ⟨hli, hv⟩ := List.getElem?_eq_some.mp hcur
      exact hv ▸ List.getElem_mem hli
    simp [sectionEntries, hcur, idxOf_none_of_not_contains (h cur hmem)]

/-- When no section header occurs in the text, the express PDF variant
falls back to the global MISCELLANEOUS pass. -/
theorem fallback_of_no_header {text : List Char}
    (h : ∀ s ∈ sections, containsSub s.header.data text = false) :
    pdfExtractFallback text = uniqueEntries (pdfGlobalPass text) := by
  rw [pdfExtractFallback, pdfSectionPass_empty_of_no_header h]
  simp

/-! ### Character class facts -/

theorem not_space_of_digit {c : Char} (h : isDigit c = true) : isJsSpace c = false := by
  rw [isDigit, Bool.and_eq_true, decide_eq_true_eq, decide_eq_true_eq] at h
  by_contra hc
  rw [Bool.not_eq_false, isJsSpace] at hc
  simp only [Bool.or_eq_true, beq_iff_eq, Bool.and_eq_true, decide_eq_true_eq,
    or_assoc] at hc
  rcases hc with h1|h1|h1|h1|h1|h1|h1|h1|⟨hr1, hr2⟩|h1|h1|h1|h1|h1|h1
  all_goals
    first
    | (subst h1; exact absurd h (by decide))
    | (exact absurd (le_trans hr1 h.2) (by decide))

theorem ne_slash_of_digit {c : Char} (h : isDigit c = true) : c ≠ '/' := by
  rintro rfl
  exact absurd h (by decide)

/-! ### Combinator lemmas -/

theorem takeWhile_app {p : Char → Bool} :
    ∀ {u v : List Char}, (∀ c ∈ u, p c = true) →
      (∀ c, v.head? = some c → p c = false) → (u ++ v).takeWhile p = u := by
  intro u
  induction u with
  | nil =>
    intro v _ hv
    cases v with
    | nil => rfl
    | cons c t => simp [List.takeWhile_cons, hv c rfl]
  | cons a u ih =>
    intro v hu hv
    have ha : p a = true := hu a (by simp)
    simp [List.takeWhile_cons, ha, ih (fun c hc => hu c (by simp [hc])) hv]

theorem takeWhile_app_ne {p : Char → Bool} :
    ∀ {u : List Char} (v : List Char), u.takeWhile p ≠ u →
      (u ++ v).takeWhile p = u.takeWhile p := by
  intro u
  induction u with
  | nil => intro v h; simp at h
  | cons a u ih =>
    intro v h
    cases ha : p a with
    | false => simp [List.takeWhile_cons, ha]
    | true =>
      simp only [List.takeWhile_cons, ha, if_true] at h
      simp only [List.cons_append, List.takeWhile_cons, ha, if_true]
      have h' : u.takeWhile p ≠ u := fun he => h (by rw [he])
      exact congrArg (List.cons a) (ih v h')

theorem plusGreedy_exact {R : Type} {p : Char → Bool} {u v : List Char}
    {k : List Char → List Char → Option R} {r : R}
    (hu : u ≠ []) (hall : ∀ c ∈ u, p c = true)
    (hv : ∀ c, v.head? = some c → p c = false)
    (hk : k u v = some r) :
    plusGreedyThen p (u ++ v) k = some r := by
  rw [plusGreedyThen, takeWhile_app hall hv]
  rcases u with - | ⟨a, u'⟩
  · exact absurd rfl hu
  · simp only [List.length_cons]
    rw [backCounts]
    have hlen : u'.length + 1 = (a :: u').length := rfl
    rw [hlen, List.take_left, List.drop_left, hk]
    rfl

theorem plusGreedy_none_head {R : Type} {p : Char → Bool} {s : List Char}
    {k : List Char → List Char → Option R}
    (h : ∀ c, s.head? = some c → p c = false) : plusGreedyThen p s k = none := by
  rw [plusGreedyThen]
  have he : s.takeWhile p = [] := by
    cases s with
    | nil => rfl
    | cons c t => simp [List.takeWhile_cons, h c rfl]
  rw [he]
  rfl

theorem backCounts_none {R : Type} {k : List Char → List Char → Option R}
    {s : List Char} :
    ∀ {n : Nat}, (∀ m, 1 ≤ m → m ≤ n → k (s.take m) (s.drop m) = none) →
      backCounts k s n = none := by
  intro n
  induction n with
  | zero => intro h; rfl
  | succ n ih =>
    intro h
    rw [backCounts, h (n + 1) (by omega) (le_refl _)]
    simp only [orElseO]
    exact ih (fun m h1 h2 => h m h1 (by omega))

theorem starLazyThen_unfold {R : Type} (dot : Char → Bool) (s : List Char)
    (k : List Char → List Char → Option R) :
    starLazyThen dot s k =
      orElseO (k [] s) (fun _ =>
        match s with
        | [] => none
        | c :: rest =>
          if dot c then starLazyThen dot rest (fun u r => k (c :: u) r)
          else none) := by
  cases s <;> rw [starLazyThen.eq_def]

theorem starLazy_exact {R : Type} {dot : Char → Bool} :
    ∀ {t : List Char} {rest : List Char} {k : List Char → List Char → Option R}
      {r : R},
      (∀ c ∈ t, dot c = true) →
      (∀ j, j < t.length → k (t.take j) (t.drop j ++ rest) = none) →
      k t rest = some r →
      starLazyThen dot (t ++ rest) k = some r := by
  intro t
  induction t with
  | nil =>
    intro rest k r _ _ hk
    rw [List.nil_append, starLazyThen_unfold, hk]
    rfl
  | cons c t ih =>
    intro rest k r hall hfail hk
    have h0 : k [] (c :: (t ++ rest)) = none := by
      have := hfail 0 (by simp)
      simpa using this
    rw [List.cons_append, starLazyThen_unfold, h0]
    have hc : dot c = true := hall c (by simp)
    simp only [orElseO, hc, if_true]
    apply ih
    · exact fun d hd => hall d (by simp [hd])
    · intro j hj
      have := hfail (j + 1) (by simpa using hj)
      simpa using this
    · simpa using hk

/-! ### Date pattern lemmas -/

theorem matchDate_shape {d rest : List Char} (h : dateShapeB d = true) :
    matchDate (d ++ rest) = some (d, rest) ∧ d.length = 10 ∧
      (∀ c, d.head? = some c → isDigit c = true) := by
  unfold dateShapeB at h
  split at h
  next a b c e f g h1 i j k =>
    simp only [Bool.and_eq_true, beq_iff_eq] at h
    obtain ⟨⟨⟨⟨⟨⟨⟨⟨⟨ha, hb⟩, hc⟩, he⟩, hf⟩, hg⟩, hh1⟩, hi⟩, hj⟩, hk⟩ := h
    subst hc
    subst hg
    refine ⟨?_, rfl, ?_⟩
    · simp [matchDate, ha, hb, he, hf, hh1, hi, hj, hk]
    · intro c0 hc0
      simp only [List.head?_cons, Option.some.injEq] at hc0
      subst hc0
      exact ha
  next => exact absurd h (by simp)

theorem matchDate_none3 {a b c : Char} {s : List Char} (h : c ≠ '/') :
    matchDate (a :: b :: c :: s) = none := by
  have hcf : (c == '/') = false := beq_eq_false_iff_ne.mpr h
  rcases s with - | ⟨x1, - | ⟨x2, - | ⟨x3, - | ⟨x4, - | ⟨x5, - | ⟨x6, - | ⟨x7, s'⟩⟩⟩⟩⟩⟩⟩ <;>
    simp [matchDate, hcf]

/-! ### Matching one well-formed record -/

theorem dt_head_cons {dt : List Char} (h : dateShapeB dt = true) :
    ∃ d0 dtl, dt = d0 :: dtl ∧ isDigit d0 = true := by
  obtain ⟨-, hlen, hhead⟩ := @matchDate_shape _ [] h
  cases dt with
  | nil => simp at hlen
  | cons d0 dtl => exact ⟨d0, dtl, rfl, hhead d0 rfl⟩

theorem getLast_mem_drop {α : Type} :
    ∀ {t : List α} {j : Nat} {c : α}, j < t.length → t.getLast? = some c →
      c ∈ t.drop j := by
  intro t
  induction t with
  | nil => intro j c hj _; simp at hj
  | cons a t ih =>
    intro j c hj hl
    cases j with
    | zero =>
      simpa using List.mem_of_mem_getLast? (show c ∈ (a :: t).getLast? by simp [hl])
    | succ i =>
      have hjt : i < t.length := by simpa using hj
      have hlt : t.getLast? = some c := by
        cases t with
        | nil => simp at hjt
        | cons b t2 => simpa using hl
      simpa using ih hjt hlt

/-- Inside the title, every backtracking count of the whitespace run leads
the date pattern to a position whose third character is not a slash, so the
lazy quantifier cannot stop before the end of the title. -/
theorem lazy_tail_fail {t dt rest : List Char}
    (htc : ∀ c ∈ t, c ≠ '/')
    (htl : ∀ c, t.getLast? = some c → isJsSpace c = false)
    (hdt : dateShapeB dt = true)
    {j : Nat} (hj : j < t.length)
    (F : List Char → List Char × List Char → RawMatch) :
    plusGreedyThen isJsSpace (t.drop j ++ ' ' :: (dt ++ rest))
      (fun w2 r6 => (matchDate r6).map (F w2)) = none := by
  obtain ⟨d0, dtl, hdteq, hd0⟩ := dt_head_cons hdt
  have hdj : t.drop j = t[j] :: t.drop (j + 1) := List.drop_eq_getElem_cons hj
  by_cases hws : isJsSpace t[j] = true
  case neg =>
    apply plusGreedy_none_head
    intro c hc
    rw [hdj] at hc
    simp only [List.cons_append, List.head?_cons, Option.some.injEq] at hc
    subst hc
    simpa using hws
  case pos =>
    rw [plusGreedyThen]
    obtain ⟨cl, hcl⟩ : ∃ cl, t.getLast? = some cl := by
      cases hgl : t.getLast? with
      | none => rw [List.getLast?_eq_none_iff] at hgl; subst hgl; simp at hj
      | some x => exact ⟨x, rfl⟩
    have hclws := htl cl hcl
    have hclmem : cl ∈ t.drop j := getLast_mem_drop hj hcl
    have htw_ne : (t.drop j).takeWhile isJsSpace ≠ t.drop j := by
      intro he
      have hmem : cl ∈ (t.drop j).takeWhile isJsSpace := by rw [he]; exact hclmem
      have := List.mem_takeWhile_imp hmem
      rw [hclws] at this
      exact absurd this (by simp)
    have htw_app : ((t.drop j ++ ' ' :: (dt ++ rest)).takeWhile isJsSpace)
        = (t.drop j).takeWhile isJsSpace :=
      takeWhile_app_ne (' ' :: (dt ++ rest)) htw_ne
    rw [htw_app]
    have hrun_lt : ((t.drop j).takeWhile isJsSpace).length < (t.drop j).length := by
      have hle := (List.takeWhile_prefix (l := t.drop j) isJsSpace).length_le
      rcases Nat.lt_or_ge (((t.drop j).takeWhile isJsSpace).length)
          ((t.drop j).length) with hlt | hge
      · exact hlt
      · exact absurd
          ((List.takeWhile_prefix isJsSpace).eq_of_length (le_antisymm hle hge))
          htw_ne
    apply backCounts_none
    intro m h1 h2
    have hmlt : m < (t.drop j).length := lt_of_le_of_lt h2 hrun_lt
    have hdropm : (t.drop j ++ ' ' :: (dt ++ rest)).drop m
        = t.drop (j + m) ++ ' ' :: (dt ++ rest) := by
      rw [List.drop_append_of_le_length (le_of_lt hmlt), List.drop_drop]
    simp only [hdropm]
    have hq : j + m < t.length := by
      have hld : (t.drop j).length = t.length - j := List.length_drop j t
      omega
    have hq_cons : t.drop (j + m) = t[j + m] :: t.drop (j + m + 1) :=
      List.drop_eq_getElem_cons hq
    rw [hq_cons]
    rcases hrem : t.drop (j + m + 1) with - | ⟨c1, u1⟩
    · rw [hdteq]
      simp only [List.cons_append, List.nil_append]
      rw [matchDate_none3 (ne_slash_of_digit hd0)]
      rfl
    · rcases u1 with - | ⟨c2, u2⟩
      · simp only [List.cons_append, List.nil_append]
        rw [matchDate_none3 (show (' ' : Char) ≠ '/' by decide)]
        rfl
      · have hc2mem : c2 ∈ t := by
          have hmem2 : c2 ∈ t.drop (j + m + 1) := by rw [hrem]; simp
          exact List.drop_subset _ _ hmem2
        simp only [List.cons_append]
        rw [matchDate_none3 (htc c2 hc2mem)]
        rfl

theorem dashThen_pos {R : Type} (r2 : List Char) (k : List Char → Option R) :
    dashThen ('-' :: r2) k = k r2 := rfl

/-- The continuation of the docket pattern applied to a well-formed record
remainder: digits, one space, the title, one space, the date. -/
theorem record_tail (a : List Char) {digs t dt rest : List Char}
    (hdne : digs ≠ []) (hdig : ∀ c ∈ digs, isDigit c = true)
    (htne : t ≠ []) (htc : ∀ c ∈ t, c ≠ '/')
    (htd : ∀ c ∈ t, dotNoNL c = true)
    (hth : ∀ c, t.head? = some c → isJsSpace c = false)
    (htl : ∀ c, t.getLast? = some c → isJsSpace c = false)
    (hdt : dateShapeB dt = true) :
    plusGreedyThen isDigit (digs ++ ' ' :: (t ++ ' ' :: (dt ++ rest))) (fun ds r3 =>
      plusGreedyThen isJsSpace r3 (fun w1 r4 =>
        starLazyThen dotNoNL r4 (fun ti r5 =>
          plusGreedyThen isJsSpace r5 (fun w2 r6 =>
            (matchDate r6).map (fun pr =>
              ({ docket := a ++ '-' :: ds
                 title := ti
                 date := pr.1
                 stop := a.length + 1 + ds.length + w1.length + ti.length +
                   w2.length + 10 } : RawMatch))))))
      = some ⟨a ++ '-' :: digs, t, dt,
          a.length + 1 + digs.length + 1 + t.length + 1 + 10⟩ := by
  obtain ⟨d0, dtl, hdteq, hd0⟩ := dt_head_cons hdt
  apply plusGreedy_exact hdne hdig
  · intro c hc
    simp only [List.cons_append, List.head?_cons, Option.some.injEq] at hc
    subst hc
    decide
  · refine plusGreedy_exact (u := [' ']) (v := t ++ ' ' :: (dt ++ rest))
      (by simp) (by intro c hc; simp at hc; subst hc; decide) ?_ ?_
    · intro c hc
      rcases t with - | ⟨t0, t1⟩
      · exact absurd rfl htne
      · simp only [List.cons_append, List.head?_cons, Option.some.injEq] at hc
        subst hc
        exact hth t0 (by simp)
    · refine @starLazy_exact RawMatch dotNoNL t (' ' :: (dt ++ rest)) _ _
        htd ?_ ?_
      · intro j hj
        exact lazy_tail_fail htc htl hdt hj _
      · refine plusGreedy_exact (u := [' ']) (v := dt ++ rest)
          (by simp) (by intro c hc; simp at hc; subst hc; decide) ?_ ?_
        · intro c hc
          rw [hdteq] at hc
          simp only [List.cons_append, List.head?_cons, Option.some.injEq] at hc
          subst hc
          exact not_space_of_digit hd0
        · rw [(matchDate_shape hdt).1]
          rfl

theorem altsThen_cons_pos {R : Type} {s : List Char}
    {k : List Char → List Char → Option R} {a : List Char}
    {more : List (List Char)} {r : R}
    (hpre : a.isPrefixOf s = true) (hk : k a (s.drop a.length) = some r) :
    altsThen s k (a :: more) = some r := by
  rw [altsThen, if_pos hpre, hk]
  rfl

theorem altsThen_cons_neg {R : Type} {s : List Char}
    {k : List Char → List Char → Option R} {a : List Char}
    {more : List (List Char)}
    (hpre : a.isPrefixOf s = false) :
    altsThen s k (a :: more) = altsThen s k more := by
  rw [altsThen, hpre]
  rfl

theorem isPrefixOf_cons_false {a c : Char} {as s : List Char} (h : a ≠ c) :
    List.isPrefixOf (a :: as) (c :: s) = false := by
  simp only [List.isPrefixOf, beq_eq_false_iff_ne.mpr h, Bool.false_and]

/-- A full well-formed record at the head of the input matches, with the
three capture groups being exactly the docket, the title and the date. -/
theorem tryAt_record {pfx digs t dt rest : List Char}
    (hpfx : pfx = ['M', 'C'] ∨ pfx = ['F', 'F'] ∨ pfx = ['M', 'X'])
    (hdne : digs ≠ []) (hdig : ∀ c ∈ digs, isDigit c = true)
    (htne : t ≠ []) (htc : ∀ c ∈ t, c ≠ '/')
    (htd : ∀ c ∈ t, dotNoNL c = true)
    (hth : ∀ c, t.head? = some c → isJsSpace c = false)
    (htl : ∀ c, t.getLast? = some c → isJsSpace c = false)
    (hdt : dateShapeB dt = true) :
    tryAt htmlAlts dotNoNL
        (pfx ++ '-' :: (digs ++ ' ' :: (t ++ ' ' :: (dt ++ rest))))
      = some ⟨pfx ++ '-' :: digs, t, dt,
          pfx.length + 1 + digs.length + 1 + t.length + 1 + 10⟩ := by
  rcases hpfx with h | h | h <;> subst h
  · have hs : ((['M', 'C'] : List Char) ++
        '-' :: (digs ++ ' ' :: (t ++ ' ' :: (dt ++ rest))))
        = 'M' :: 'C' :: '-' :: (digs ++ ' ' :: (t ++ ' ' :: (dt ++ rest))) := by
      simp
    rw [tryAt, htmlAlts, hs]
    have hp : List.isPrefixOf ['M', 'C']
        ('M' :: 'C' :: '-' :: (digs ++ ' ' :: (t ++ ' ' :: (dt ++ rest))))
        = true := rfl
    refine altsThen_cons_pos hp ?_
    exact record_tail ['M', 'C'] hdne hdig htne htc htd hth htl hdt
  · have hs : ((['F', 'F'] : List Char) ++
        '-' :: (digs ++ ' ' :: (t ++ ' ' :: (dt ++ rest))))
        = 'F' :: 'F' :: '-' :: (digs ++ ' ' :: (t ++ ' ' :: (dt ++ rest))) := by
      simp
    rw [tryAt, htmlAlts, hs]
    have hn1 : List.isPrefixOf ['M', 'C']
        ('F' :: 'F' :: '-' :: (digs ++ ' ' :: (t ++ ' ' :: (dt ++ rest))))
        = false := rfl
    rw [altsThen_cons_neg hn1]
    have hp : List.isPrefixOf ['F', 'F']
        ('F' :: 'F' :: '-' :: (digs ++ ' ' :: (t ++ ' ' :: (dt ++ rest))))
        = true := rfl
    refine altsThen_cons_pos hp ?_
    exact record_tail ['F', 'F'] hdne hdig htne htc htd hth htl hdt
  · have hs : ((['M', 'X'] : List Char) ++
        '-' :: (digs ++ ' ' :: (t ++ ' ' :: (dt ++ rest))))
        = 'M' :: 'X' :: '-' :: (digs ++ ' ' :: (t ++ ' ' :: (dt ++ rest))) := by
      simp
    rw [tryAt, htmlAlts, hs]
    have hn1 : List.isPrefixOf ['M', 'C']
        ('M' :: 'X' :: '-' :: (digs ++ ' ' :: (t ++ ' ' :: (dt ++ rest))))
        = false := rfl
    rw [altsThen_cons_neg hn1]
    have hn2 : List.isPrefixOf ['F', 'F']
        ('M' :: 'X' :: '-' :: (digs ++ ' ' :: (t ++ ' ' :: (dt ++ rest))))
        = false := rfl
    rw [altsThen_cons_neg hn2]
    have hp : List.isPrefixOf ['M', 'X']
        ('M' :: 'X' :: '-' :: (digs ++ ' ' :: (t ++ ' ' :: (dt ++ rest))))
        = true := rfl
    refine altsThen_cons_pos hp ?_
    exact record_tail ['M', 'X'] hdne hdig htne htc htd hth htl hdt

/-- No match can start at a newline. -/
theorem tryAt_newline {s : List Char} :
    tryAt htmlAlts dotNoNL ('\n' :: s) = none := by
  rw [tryAt, htmlAlts]
  rw [altsThen_cons_neg (isPrefixOf_cons_false (by decide))]
  rw [altsThen_cons_neg (isPrefixOf_cons_false (by decide))]
  rw [altsThen_cons_neg (isPrefixOf_cons_false (by decide))]
  rfl

/-! ### The exec loop over a rendered triple list -/

theorem scanFuel_nil (alts : List (List Char)) (dot : Char → Bool)
    (f pos : Nat) : scanFuel alts dot f [] pos = [] := by
  cases f <;> rfl

theorem scanFuel_cons_match {alts : List (List Char)} {dot : Char → Bool}
    {f pos : Nat} {s : List Char} {m : RawMatch}
    (hs : s ≠ []) (hm : tryAt alts dot s = some m) :
    scanFuel alts dot (f + 1) s pos
      = (pos, m) :: scanFuel alts dot f (s.drop m.stop) (pos + m.stop) := by
  rcases s with - | ⟨c, s'⟩
  · exact absurd rfl hs
  · rw [scanFuel, hm]
    rfl

theorem scanFuel_cons_fail {alts : List (List Char)} {dot : Char → Bool}
    {f pos : Nat} {c : Char} {s : List Char}
    (hm : tryAt alts dot (c :: s) = none) :
    scanFuel alts dot (f + 1) (c :: s) pos = scanFuel alts dot f s (pos + 1) := by
  rw [scanFuel, hm]
  rfl

theorem render_length {tr : SrcTriple} (hdt : dateShapeB tr.date = true) :
    tr.render.length
      = tr.pfx.length + 1 + tr.digs.length + 1 + tr.title.length + 1 + 10 := by
  have h10 := (@matchDate_shape _ [] hdt).2.1
  simp only [SrcTriple.render, SrcTriple.docket, List.length_append,
    List.length_cons]
  omega

/-- The exec loop on a rendered list of well-formed triples produces
exactly one match per triple, in order. -/
theorem scanFuel_render :
    ∀ (ts : List SrcTriple), (∀ tr ∈ ts, GoodTriple tr) →
      ∀ (f pos : Nat), (renderText ts).length ≤ f →
        scanFuel htmlAlts dotNoNL f (renderText ts) pos
          = expectedMatches ts pos := by
  intro ts
  induction ts with
  | nil =>
    intro _ f pos _
    rw [renderText, expectedMatches]
    exact scanFuel_nil _ _ f pos
  | cons tr rest ih =>
    intro hgood f pos hf
    obtain ⟨hpfx, hdne, hdig, htne, htcd, hth, htl, hnorm, hdt⟩ :=
      hgood tr (by simp)
    have htc : ∀ c ∈ tr.title, c ≠ '/' := fun c hc => (htcd c hc).2
    have htd : ∀ c ∈ tr.title, dotNoNL c = true := fun c hc => (htcd c hc).1
    have hlen := render_length hdt
    cases rest with
    | nil =>
      have hrt : renderText [tr] = tr.render := rfl
      rw [hrt] at hf ⊢
      rw [expectedMatches, expectedMatches]
      have hre : tr.render
          = tr.pfx ++ '-' :: (tr.digs ++ ' ' :: (tr.title ++ ' ' :: (tr.date ++ []))) := by
        simp [SrcTriple.render, SrcTriple.docket]
      have hm : tryAt htmlAlts dotNoNL tr.render
          = some ⟨tr.pfx ++ '-' :: tr.digs, tr.title, tr.date,
              tr.pfx.length + 1 + tr.digs.length + 1 + tr.title.length + 1 + 10⟩ := by
        rw [hre]
        exact tryAt_record hpfx hdne hdig htne htc htd hth htl hdt
      cases f with
      | zero => omega
      | succ f' =>
        rw [scanFuel_cons_match (by intro he; rw [he] at hlen; simp at hlen) hm]
        have hstop : tr.pfx.length + 1 + tr.digs.length + 1 + tr.title.length + 1 + 10
            = tr.render.length := hlen.symm
        rw [hstop, List.drop_length, scanFuel_nil]
        simp [SrcTriple.docket]
    | cons tr2 rs =>
      have hrt : renderText (tr :: tr2 :: rs)
          = tr.render ++ '\n' :: renderText (tr2 :: rs) := rfl
      rw [hrt] at hf ⊢
      rw [expectedMatches]
      have hre : tr.render ++ '\n' :: renderText (tr2 :: rs)
          = tr.pfx ++ '-' :: (tr.digs ++ ' ' :: (tr.title ++ ' ' ::
              (tr.date ++ ('\n' :: renderText (tr2 :: rs))))) := by
        simp [SrcTriple.render, SrcTriple.docket]
      have hm : tryAt htmlAlts dotNoNL (tr.render ++ '\n' :: renderText (tr2 :: rs))
          = some ⟨tr.pfx ++ '-' :: tr.digs, tr.title, tr.date,
              tr.pfx.length + 1 + tr.digs.length + 1 + tr.title.length + 1 + 10⟩ := by
        rw [hre]
        exact tryAt_record hpfx hdne hdig htne htc htd hth htl hdt
      have hslen : (tr.render ++ '\n' :: renderText (tr2 :: rs)).length
          = tr.render.length + 1 + (renderText (tr2 :: rs)).length := by
        simp
        omega
      cases f with
      | zero => omega
      | succ f' =>
        rw [scanFuel_cons_match (by simp) hm]
        have hstop : tr.pfx.length + 1 + tr.digs.length + 1 + tr.title.length + 1 + 10
            = tr.render.length := hlen.symm
        rw [hstop, List.drop_left]
        cases f' with
        | zero => omega
        | succ f'' =>
          rw [scanFuel_cons_fail tryAt_newline]
          have hrec := ih (fun x hx => hgood x (by simp [hx])) f''
            (pos + tr.render.length + 1) (by omega)
          rw [hrec]
          simp [SrcTriple.docket]

/-- Projecting the expected matches through any function of the raw match. -/
theorem expectedMatches_map {β : Type} (g : RawMatch → β) :
    ∀ (ts : List SrcTriple) (pos : Nat),
      (expectedMatches ts pos).map (fun im => g im.2)
        = ts.map (fun tr => g ⟨tr.docket, tr.title, tr.date, tr.render.length⟩) := by
  intro ts
  induction ts with
  | nil => intro pos; rfl
  | cons tr rest ih =>
    intro pos
    rw [expectedMatches, List.map_cons, List.map_cons, ih]

/-- The HTML extraction pipeline on a rendered list of well-formed triples
with pairwise distinct (docket, title) pairs returns exactly the triples,
in order. -/
theorem htmlExtract_render (ts : List SrcTriple)
    (hgood : ∀ tr ∈ ts, GoodTriple tr)
    (hdist : (ts.map (fun tr => (tr.docket, tr.title))).Nodup) :
    (htmlExtract (renderText ts)).map (fun e => (e.number, e.title, e.decided))
      = ts.map (fun tr =>
          (tr.docket.asString, tr.title.asString, tr.date.asString)) := by
  have hscan : scan htmlAlts dotNoNL (renderText ts) = expectedMatches ts 0 :=
    scanFuel_render ts hgood _ 0 (le_refl _)
  have hnorm : ∀ tr ∈ ts, normalizeHTML tr.title = tr.title := by
    intro tr htr
    exact (hgood tr htr).2.2.2.2.2.2.2.1
  have hpairs : (htmlExtractRaw (renderText ts)).map (fun e => (e.number, e.title))
      = ts.map (fun tr => (tr.docket.asString, tr.title.asString)) := by
    rw [htmlExtractRaw, hscan, List.map_map]
    show (expectedMatches ts 0).map
        (fun im => ((im.2.docket.asString,
          (normalizeHTML im.2.title).asString) : String × String)) = _
    exact (expectedMatches_map
        (fun m => (m.docket.asString, (normalizeHTML m.title).asString)) ts 0).trans
      (List.map_congr_left (fun tr htr => by rw [hnorm tr htr]))
  have htriples : (htmlExtractRaw (renderText ts)).map
        (fun e => (e.number, e.title, e.decided))
      = ts.map (fun tr =>
          (tr.docket.asString, tr.title.asString, tr.date.asString)) := by
    rw [htmlExtractRaw, hscan, List.map_map]
    show (expectedMatches ts 0).map
        (fun im => ((im.2.docket.asString, (normalizeHTML im.2.title).asString,
          im.2.date.asString) : String × String × String)) = _
    exact (expectedMatches_map
        (fun m => (m.docket.asString, (normalizeHTML m.title).asString,
          m.date.asString)) ts 0).trans
      (List.map_congr_left (fun tr htr => by rw [hnorm tr htr]))
  have hinj : Function.Injective (Prod.map List.asString List.asString) := by
    intro p q hpq
    have h1 := congrArg Prod.fst hpq
    have h2 := congrArg Prod.snd hpq
    simp only [Prod.map_fst, Prod.map_snd] at h1 h2
    exact Prod.ext (List.asString_inj.mp h1) (List.asString_inj.mp h2)
  have hnodup : ((htmlExtractRaw (renderText ts)).map
      (fun e => (e.number, e.title))).Nodup := by
    rw [hpairs]
    have hmm : ts.map (fun tr => (tr.docket.asString, tr.title.asString))
        = (ts.map (fun tr => (tr.docket, tr.title))).map
            (Prod.map List.asString List.asString) := by
      rw [List.map_map]
      rfl
    rw [hmm]
    exact hdist.map hinj
  rw [htmlExtract, unique_self_of_nodup_pairs hnodup, htriples]

/-! ### Claim theorems -/

set_option maxRecDepth 1000000

/-- C1: the HTML-path category is decided by testing the upper-cased
500-character lookback window against the fixed ordered keyword table, and
the keyword occupying the later table position wins whenever several
keywords occur, regardless of which occurrence lies nearer to the match:
the result depends only on which keywords are contained in the window (the
getLastD characterization below), not on occurrence positions.  The
concrete conjunct runs the full extractor on a window where DISMISSAL
occurs nearer to the match than REVOCATION, yet REVOCATION (the later
table entry) wins. -/
theorem claim_C1_category_last_keyword_wins :
    (∀ w : List Char,
        categorize w =
          ((categoryPatterns.filter (fun pc => containsSub pc.1.data w)).map
              Prod.snd).getLastD "MISCELLANEOUS")
    ∧ (htmlExtract exText1).map (fun e => (e.number, e.category)) =
        [("MC-1", "REVOCATION")] :=
  ⟨categorize_char, by decide⟩

/-- C2: every entry surviving the PDF path has a normalized title length
strictly between 0 and 500, while the HTML path pushes one entry per match
unconditionally; concretely, a 500-character title is retained by the HTML
extractor and silently dropped by the PDF extractor. -/
theorem claim_C2_title_length_asymmetry :
    (∀ (text : List Char) (e : RegisterEntry), e ∈ pdfExtract text →
        0 < e.title.length ∧ e.title.length < 500)
    ∧ (∀ text : List Char,
        (htmlExtractRaw text).length = (scan htmlAlts dotNoNL text).length)
    ∧ (htmlExtract exText2h).map (fun e => (e.number, e.title.length)) =
        [("MC-1", 500)]
    ∧ pdfExtract exText2p = [] :=
  ⟨fun _ _ h => pdfSectionPass_title_bounds (mem_of_mem_uniqueEntries h),
   fun text => by simp [htmlExtractRaw],
   by decide, by decide⟩

theorem claim_C2_witness :
    ((⟨"MC-1", "Foo", "01/02/2024", "REVOCATION"⟩ : RegisterEntry) ∈
        pdfExtract exText4)
    ∧ (0 < ("Foo" : String).length ∧ ("Foo" : String).length < 500) :=
  ⟨by decide,
   claim_C2_title_length_asymmetry.1 exText4
     ⟨"MC-1", "Foo", "01/02/2024", "REVOCATION"⟩ (by decide)⟩

/-- C3: for an input text consisting of N well-formed docket/title/date
triples (docket with an MC, FF or MX prefix, a dash and digits; a nonempty
normalized title free of slashes and line terminators; an MM/DD/YYYY date),
laid out one per line, whose (docket, title) pairs are pairwise distinct,
extraction followed by deduplication yields exactly N entries carrying the
triples in their original order. -/
theorem claim_C3_wellformed_extraction (ts : List SrcTriple)
    (hgood : ∀ tr ∈ ts, GoodTriple tr)
    (hdist : (ts.map (fun tr => (tr.docket, tr.title))).Nodup) :
    (htmlExtract (renderText ts)).map (fun e => (e.number, e.title, e.decided))
        = ts.map (fun tr =>
            (tr.docket.asString, tr.title.asString, tr.date.asString))
      ∧ (htmlExtract (renderText ts)).length = ts.length := by
  have h := htmlExtract_render ts hgood hdist
  refine ⟨h, ?_⟩
  have hl := congrArg List.length h
  simpa using hl

theorem claim_C3_witness :
    ((∀ tr ∈ exTriples, GoodTriple tr)
      ∧ (exTriples.map (fun tr => (tr.docket, tr.title))).Nodup)
    ∧ ((htmlExtract (renderText exTriples)).map
          (fun e => (e.number, e.title, e.decided))
        = exTriples.map (fun tr =>
            (tr.docket.asString, tr.title.asString, tr.date.asString))
      ∧ (htmlExtract (renderText exTriples)).length = exTriples.length) :=
  ⟨⟨by decide, by decide⟩,
   claim_C3_wellformed_extraction exTriples (by decide) (by decide)⟩

/-- C4: every accepted PDF-path record carries the label of a section
whose header occurs in the text (the category comes from the section
table, never from per-record surrounding text); in particular the text
with a REVOCATIONS header, one record and no further headers yields one
entry with category REVOCATION. -/
theorem claim_C4_pdf_category_from_section :
    (∀ (text : List Char) (e : RegisterEntry), e ∈ pdfExtract text →
        ∃ s ∈ sections, e.category = s.name ∧
          containsSub s.header.data text = true)
    ∧ (pdfExtract exText4).map (fun e => (e.number, e.title, e.category)) =
        [("MC-1", "Foo", "REVOCATION")] :=
  ⟨fun _ _ h => pdfSectionPass_category (mem_of_mem_uniqueEntries h),
   by decide⟩

theorem claim_C4_witness :
    ((⟨"MC-1", "Foo", "01/02/2024", "REVOCATION"⟩ : RegisterEntry) ∈
        pdfExtract exText4)
    ∧ ∃ s ∈ sections,
        (⟨"MC-1", "Foo", "01/02/2024", "REVOCATION"⟩ : RegisterEntry).category =
            s.name ∧ containsSub s.header.data exText4 = true :=
  ⟨by decide,
   claim_C4_pdf_category_from_section.1 exText4
     ⟨"MC-1", "Foo", "01/02/2024", "REVOCATION"⟩ (by decide)⟩

/-- C5, counterexample: the claim says the MISCELLANEOUS fallback is taken
exactly when no section header occurs in the text.  In exText5 the
REVOCATIONS header occurs, yet the section pass drops its only record (the
normalized title is empty), so the fallback runs anyway and relabels the
record MISCELLANEOUS. -/
theorem claim_C5_counterexample :
    containsSub ("REVOCATIONS").data exText5 = true
    ∧ pdfSectionPass exText5 = []
    ∧ pdfExtractFallback exText5 =
        [⟨"MC-1", "", "01/02/2024", "MISCELLANEOUS"⟩] := by
  refine ⟨by decide, by decide, by decide⟩

/-- C5, amended: the fallback is taken exactly when the sectioned pass
produces zero entries.  The absence of every section header implies this
(first conjunct), but headers may be present while every candidate record
is filtered out, and then the fallback still runs (second conjunct). -/
theorem claim_C5_fallback_on_empty_section_pass :
    (∀ text : List Char,
        (∀ s ∈ sections, containsSub s.header.data text = false) →
          pdfSectionPass text = [] ∧
            pdfExtractFallback text = uniqueEntries (pdfGlobalPass text))
    ∧ (containsSub ("REVOCATIONS").data exText5 = true
        ∧ pdfSectionPass exText5 = []
        ∧ (pdfExtractFallback exText5).map (fun e => e.category) =
            ["MISCELLANEOUS"]) :=
  ⟨fun _ h => ⟨pdfSectionPass_empty_of_no_header h, fallback_of_no_header h⟩,
   by decide, by decide, by decide⟩

theorem claim_C5_witness :
    (∀ s ∈ sections, containsSub s.header.data exText5b = false)
    ∧ (pdfSectionPass exText5b = [] ∧
        pdfExtractFallback exText5b = uniqueEntries (pdfGlobalPass exText5b)) :=
  ⟨by decide, claim_C5_fallback_on_empty_section_pass.1 exText5b (by decide)⟩

/-- C6: deduplication keeps exactly the entries whose (number, title) pair
has no earlier occurrence, first occurrences in their original relative
order, under exact string equality. -/
theorem claim_C6_dedup_first_occurrence (es : List RegisterEntry) :
    uniqueEntries es =
      ((withIdx es 0).filter
          (fun ie => (es.take ie.1).all (fun x => !pairEq x ie.2))).map
        (fun ie => ie.2) :=
  uniqueEntries_char es

/-- C7: deduplication is idempotent. -/
theorem claim_C7_dedup_idempotent (es : List RegisterEntry) :
    uniqueEntries (uniqueEntries es) = uniqueEntries es :=
  unique_self_of_pairwise (unique_pairwise es)

/-- C8: when the fetched body does not contain FMCSA REGISTER
case-insensitively, the HTML endpoint answers 400 with success false, the
invalid-response message and no entries, independently of the HTML
flattening step (extraction is never attempted). -/
theorem claim_C8_marker_check (flatten : String → String) (body : String)
    (h : containsSub ("FMCSA REGISTER").data (upperList body.data) = false) :
    fmcsaRegisterRespond flatten body =
      ⟨400, false, some "Invalid response from FMCSA", []⟩ := by
  simp [fmcsaRegisterRespond, h]

theorem claim_C8_witness :
    containsSub ("FMCSA REGISTER").data
        (upperList ("<html>nothing here</html>").data) = false
    ∧ fmcsaRegisterRespond id "<html>nothing here</html>" =
        ⟨400, false, some "Invalid response from FMCSA", []⟩ :=
  ⟨by decide, claim_C8_marker_check id "<html>nothing here</html>" (by decide)⟩

/-- C9: the two date converters satisfy the stated equations; the JSDate
argument encodes 20 February 2024 through the three getters the source
reads (getMonth is 0-based, so February is month0 = 1). -/
theorem claim_C9_date_formatters :
    formatDateForPDF "2024-02-20" = "20240220"
    ∧ formatDateForFMCSA ⟨2024, 1, 20⟩ = "20-FEB-24" :=
  ⟨by decide, by decide⟩

/-- C10: on a composite MX-MC docket the PDF-path pattern (whose
alternation includes MX-MC) captures the full token, while the HTML-path
pattern captures only the trailing MC-digits substring. -/
theorem claim_C10_docket_prefix_divergence :
    (pdfExtract exText10).map (fun e => e.number) = ["MX-MC-123456"]
    ∧ (htmlExtract exText10).map (fun e => e.number) = ["MC-123456"] :=
  ⟨by decide, by decide⟩

end Hmd
